import Mathlib

/-!
Verification of sshwifty: session registries, SFTP relay handlers and the adaptive
upload limiter.

A shallow embedding of

* `application/commands/sessions.go` (session and reconnect registries),
* `application/controller/socket_sftp.go` (origin check, recursive delete,
  download and upload streams, adaptive rate limiter),

followed by theorems about the embedded functions.

Conventions of the embedding:

* a `sync.Map` is a total function from keys to optional values;
* a Go pointer that may be nil is an `Option`;
* wall-clock instants and durations are integers (nanoseconds);
* remote effects (SFTP calls, channel writes, the inner sink of the limiter)
  are answered by explicit environment arguments, and every handler returns
  the list of effects it issued.
-/

namespace Sshwifty

/-! ## Errors -/

/-- Go error values the handlers compare against or stringify. -/
inductive Err where
  | eof
  | unexpectedEOF
  | closedPipe
  | other (msg : String)
deriving DecidableEq, Repr

/-- The `Error()` text of an error value. -/
def Err.Error : Err → String
  | .eof => "EOF"
  | .unexpectedEOF => "unexpected EOF"
  | .closedPipe => "io: read/write on closed pipe"
  | .other msg => msg

/-! ## `sync.Map` -/

/-- What a `sync.Map` slot can hold as `interface{}`: a (possibly nil) pointer
of the expected type, or a value of some other dynamic type. -/
inductive Stored (α : Type) where
  | typed (ptr : Option α)
  | foreign
deriving DecidableEq, Repr

/-- A `sync.Map` keyed by strings. -/
abbrev SyncMap (α : Type) := String → Option (Stored α)

/-- Go `sync.Map.Load`. -/
def SyncMap.Load {α : Type} (m : SyncMap α) (key : String) : Option (Stored α) := m key

/-- Go `sync.Map.Store`. -/
def SyncMap.Store {α : Type} (m : SyncMap α) (key : String) (v : Stored α) : SyncMap α :=
  fun k => if k = key then some v else m k

/-- Go `sync.Map.Delete`. -/
def SyncMap.Delete {α : Type} (m : SyncMap α) (key : String) : SyncMap α :=
  fun k => if k = key then none else m k

/-- The type assertion `v.(*T)`: the pointer and whether the dynamic type matched. -/
def Stored.assert {α : Type} : Stored α → Option α × Bool
  | .typed ptr => (ptr, true)
  | .foreign => (none, false)

/-! ## Session registry (`sessions.go`) -/

/-- Go `SessionInfo`; the SSH client, auth methods and host-key callback are opaque handles. -/
structure SessionInfo where
  Client : Nat
  Address : String
  User : String
  AuthMethod : List Nat
  HostKey : Nat
deriving DecidableEq, Repr

/-- Go `SessionRegistry`. -/
structure SessionRegistry where
  m : SyncMap SessionInfo

/-- Go `SessionRegistry.Register`. -/
def SessionRegistry.Register (r : SessionRegistry) (id : String) (info : Option SessionInfo) :
    SessionRegistry :=
  { m := r.m.Store id (.typed info) }

/-- Go `SessionRegistry.Get`. -/
def SessionRegistry.Get (r : SessionRegistry) (id : String) : Option SessionInfo × Bool :=
  match r.m.Load id with
  | none => (none, false)
  | some v =>
    match v.assert with
    | (_, false) => (none, false)
    | (none, true) => (none, false)
    | (some info, true) => (some info, true)

/-- Go `SessionRegistry.Unregister`. -/
def SessionRegistry.Unregister (r : SessionRegistry) (id : String) : SessionRegistry :=
  { m := r.m.Delete id }

/-- One call on the session registry. -/
inductive SessionCall where
  | register (id : String) (info : Option SessionInfo)
  | unregister (id : String)
  | get (id : String)

/-- The id a call writes to, if it writes at all. -/
def SessionCall.writes : SessionCall → Option String
  | .register id _ => some id
  | .unregister id => some id
  | .get _ => none

/-- The registry after one call. -/
def SessionRegistry.call (r : SessionRegistry) : SessionCall → SessionRegistry
  | .register id info => r.Register id info
  | .unregister id => r.Unregister id
  | .get _ => r

/-- The registry after a finite sequence of calls. -/
def SessionRegistry.calls (r : SessionRegistry) (cs : List SessionCall) : SessionRegistry :=
  cs.foldl SessionRegistry.call r

/-! ## Reconnect registry (`sessions.go`) -/

/-- Go `ReconnectInfo`; `ExpiresAt` is an absolute instant. -/
structure ReconnectInfo where
  Address : String
  User : String
  Credential : String
  AuthMethod : String
  ExpiresAt : Int
deriving DecidableEq, Repr

/-- Go `ReconnectRegistry` (the `sync.Once` of the sweeper carries no data). -/
structure ReconnectRegistry where
  m : SyncMap ReconnectInfo

/-- Go `time.Time.After`. -/
def After (t u : Int) : Bool := decide (u < t)

/-- Go `ReconnectRegistry.Register`. -/
def ReconnectRegistry.Register (r : ReconnectRegistry) (token : String)
    (info : Option ReconnectInfo) : ReconnectRegistry :=
  { m := r.m.Store token (.typed info) }

/-- Go `ReconnectRegistry.Get` at the instant `now`: the returned pair and the registry afterwards. -/
def ReconnectRegistry.Get (r : ReconnectRegistry) (now : Int) (token : String) :
    (Option ReconnectInfo × Bool) × ReconnectRegistry :=
  match r.m.Load token with
  | none => ((none, false), r)
  | some v =>
    match v.assert with
    | (_, false) => ((none, false), r)
    | (none, true) => ((none, false), r)
    | (some info, true) =>
      if After now info.ExpiresAt then
        ((none, false), { m := r.m.Delete token })
      else
        ((some info, true), r)

/-- Go `ReconnectRegistry.Unregister`. -/
def ReconnectRegistry.Unregister (r : ReconnectRegistry) (token : String) : ReconnectRegistry :=
  { m := r.m.Delete token }

/-- The test of `ReconnectRegistry.Cleanup` on one slot: whether the sweep deletes it. -/
def ReconnectRegistry.cleanupDeletes (now : Int) (v : Stored ReconnectInfo) : Bool :=
  match v.assert with
  | (_, false) => true
  | (none, true) => true
  | (some info, true) => After now info.ExpiresAt

/-- Go `ReconnectRegistry.Cleanup` at the instant `now`. -/
def ReconnectRegistry.Cleanup (r : ReconnectRegistry) (now : Int) : ReconnectRegistry :=
  { m := fun k =>
      match r.m k with
      | none => none
      | some v => if ReconnectRegistry.cleanupDeletes now v then none else some v }

/-- The empty registry. -/
def ReconnectRegistry.empty : ReconnectRegistry := { m := fun _ => none }

/-- A session record used in examples. -/
def exampleSession : SessionInfo :=
  { Client := 1, Address := "host:22", User := "root", AuthMethod := [1], HostKey := 7 }

/-! ## Origin check of the upgrader (`newSFTPSocketCtl`) -/

/-- The part of an upgrade request the origin check reads: the `Origin` header, if
the request carries one, and the request `Host`. -/
structure Request where
  Origin : Option String
  Host : String

/-- Go `http.Header.Get("Origin")`: the header value, or the empty string without the header. -/
def Request.headerGetOrigin (r : Request) : String := r.Origin.getD ""

/-- Substring search behind `strings.Contains`: some suffix of `s` starts with `substr`. -/
def containsGo : List Char → List Char → Bool
  | [], substr => substr.isPrefixOf []
  | c :: s, substr => substr.isPrefixOf (c :: s) || containsGo s substr

/-- Go `strings.Contains`. -/
def Contains (s substr : String) : Bool := containsGo s.toList substr.toList

/-- The `CheckOrigin` closure of `newSFTPSocketCtl`. -/
def CheckOrigin (r : Request) : Bool :=
  let origin := r.headerGetOrigin
  if origin = "" then true
  else
    let host := r.Host
    Contains origin host

/-- The text after the first `://` of an origin value. -/
def afterScheme : List Char → List Char
  | ':' :: '/' :: '/' :: rest => rest
  | _ :: t => afterScheme t
  | [] => []

/-- Spec-side reading of "the host of the Origin value": the authority between
`://` and the next `/`. -/
def specOriginHost (origin : String) : String :=
  String.mk ((afterScheme origin.toList).takeWhile (fun c => c ≠ '/'))

/-- Spec-side origin policy, read as a comparison of hosts: no `Origin` header, or the origin
host equals the request `Host`. -/
def specOriginMatches (r : Request) : Prop :=
  r.Origin = none ∨ specOriginHost r.headerGetOrigin = r.Host

/-- An upgrade request whose origin host has the request host as a proper substring. -/
def lookalikeRequest : Request :=
  { Origin := some "https://evil-example.com", Host := "example.com" }

/-! ## Outbound messages and remote effects -/

/-- Go `sftpWSFileEntry`. -/
structure sftpWSFileEntry where
  Name : String
  Size : Int
  IsDir : Bool
  ModTime : String
deriving DecidableEq, Repr

/-- Go `sftpWSResponse`; the field `Type` is spelled `Typ`. -/
structure sftpWSResponse where
  Typ : String
  Files : List sftpWSFileEntry := []
  Message : String := ""
  Total : Int := 0
deriving DecidableEq, Repr

/-- What a handler does to the outside world, in program order. -/
inductive Effect where
  | sendJSON (resp : sftpWSResponse)
  | writeBinary (data : List Nat)
  | remove (path : String)
  | warning (expected got : Int) (path : String)
deriving DecidableEq, Repr

/-- Whether an effect is a JSON response on the channel. -/
def Effect.isResponse : Effect → Bool
  | .sendJSON _ => true
  | _ => false

/-- Whether an effect removes a remote file. -/
def Effect.isRemove : Effect → Bool
  | .remove _ => true
  | _ => false

/-! ## Upload join (`handleUpload`) -/

/-- The test `copyErr != nil && copyErr != io.EOF && copyErr != io.ErrUnexpectedEOF`:
the error when the test passes. -/
def copyFailure : Option Err → Option Err
  | some e => if e ≠ Err.eof ∧ e ≠ Err.unexpectedEOF then some e else none
  | none => none

/-- The tail of `handleUpload` from the join on: `copyErr`, `totalWritten` are what
`ReadFromWithConcurrency` returned and `wErr` is what the channel-reader task sent. -/
def handleUploadJoin (copyErr : Option Err) (totalWritten : Int) (wErr : Option Err)
    (path : String) (size : Int) : List Effect :=
  match copyFailure copyErr with
  | some e =>
    [.sendJSON { Typ := "error", Message := "upload failed: " ++ e.Error }, .remove path]
  | none =>
    match wErr with
    | some e =>
      [.sendJSON { Typ := "error", Message := "upload failed: " ++ e.Error }, .remove path]
    | none =>
      (if size > 0 ∧ totalWritten ≠ size then [Effect.warning size totalWritten path] else [])
        ++ [.sendJSON { Typ := "success", Message := "ok" }]

/-- Go `handleUpload`: `createErr` answers `client.Create`, `pongs` counts the ping frames
the reader task answered while streaming. -/
def handleUpload (createErr : Option Err) (pongs : Nat) (copyErr : Option Err)
    (totalWritten : Int) (wErr : Option Err) (path : String) (size : Int) : List Effect :=
  match createErr with
  | some e => [.sendJSON { Typ := "error", Message := e.Error }]
  | none =>
    .sendJSON { Typ := "success", Message := "ready" }
      :: List.replicate pongs (.sendJSON { Typ := "pong" })
      ++ handleUploadJoin copyErr totalWritten wErr path size

/-! ## Recursive delete (`handleDelete`, `removeDir`) -/

/-- A node of the remote tree below a directory, as `ReadDir` lists it. -/
inductive Node where
  | file (name : String)
  | dir (name : String) (entries : List Node)

/-- A remote SFTP operation with the path it is issued on. -/
inductive Op where
  | stat (path : String)
  | readDir (path : String)
  | remove (path : String)
  | removeDirectory (path : String)
deriving DecidableEq, Repr

/-- Whether an operation removes a node (a file or a directory). -/
def Op.isRemoval : Op → Bool
  | .remove _ => true
  | .removeDirectory _ => true
  | _ => false

/-- The operations issued so far, in order, and the error returned (none on success). -/
abbrev Run := List Op × Option Err

/-- One remote call: it is issued, and `fails` says whether it errors. -/
def call (fails : Op → Option Err) (op : Op) : Run := ([op], fails op)

/-- Sequencing with `if err != nil { return err }`: the continuation runs only
when the first part returned no error. -/
def Run.andThen (r k : Run) : Run :=
  match r.2 with
  | some err => (r.1, some err)
  | none => (r.1 ++ k.1, k.2)

mutual
/-- Go `sftpSocket.removeDir` on the directory at `path` whose listing is `entries`. -/
def removeDir (fails : Op → Option Err) (path : String) (entries : List Node) : Run :=
  (call fails (.readDir path)).andThen
    ((removeEntries fails path entries).andThen (call fails (.removeDirectory path)))
/-- The loop `for _, e := range entries` of `removeDir`. -/
def removeEntries (fails : Op → Option Err) (path : String) : List Node → Run
  | [] => ([], none)
  | .dir name sub :: rest =>
    (removeDir fails (path ++ "/" ++ name) sub).andThen (removeEntries fails path rest)
  | .file name :: rest =>
    (call fails (.remove (path ++ "/" ++ name))).andThen (removeEntries fails path rest)
end

/-- Go `sftpSocket.handleDelete` on `path`, where `target` is the node found there: the
remote operations issued and the response sent. -/
def handleDelete (fails : Op → Option Err) (path : String) (target : Node) :
    List Op × sftpWSResponse :=
  match fails (.stat path) with
  | some err => ([.stat path], { Typ := "error", Message := err.Error })
  | none =>
    let r : Run :=
      match target with
      | .dir _ entries => removeDir fails path entries
      | .file _ => call fails (.remove path)
    match r.2 with
    | some err => (.stat path :: r.1, { Typ := "error", Message := err.Error })
    | none => (.stat path :: r.1, { Typ := "success", Message := "ok" })

mutual
/-- Every operation `removeDir` issues below one entry when nothing fails. -/
def planNode (path : String) : Node → List Op
  | .file name => [.remove (path ++ "/" ++ name)]
  | .dir name entries =>
    .readDir (path ++ "/" ++ name) :: planEntries (path ++ "/" ++ name) entries
      ++ [.removeDirectory (path ++ "/" ++ name)]
/-- Every operation the entry loop issues when nothing fails. -/
def planEntries (path : String) : List Node → List Op
  | [] => []
  | n :: rest => planNode path n ++ planEntries path rest
end

/-- Every operation `removeDir` issues on a directory when nothing fails. -/
def planDir (path : String) (entries : List Node) : List Op :=
  .readDir path :: planEntries path entries ++ [.removeDirectory path]

/-- Issue the operations of a list in order, stopping after the first that fails. -/
def runUntilFail (fails : Op → Option Err) : List Op → Run
  | [] => ([], none)
  | op :: rest => (call fails op).andThen (runUntilFail fails rest)

mutual
/-- Spec-side depth-first post-order: the removal of one entry, its own entries first. -/
def specPostOrderNode (path : String) : Node → List Op
  | .file name => [.remove (path ++ "/" ++ name)]
  | .dir name entries =>
    specPostOrderEntries (path ++ "/" ++ name) entries
      ++ [.removeDirectory (path ++ "/" ++ name)]
/-- Spec-side depth-first post-order over the entries of a directory: the removals of
all its descendants. -/
def specPostOrderEntries (path : String) : List Node → List Op
  | [] => []
  | n :: rest => specPostOrderNode path n ++ specPostOrderEntries path rest
end

/-- Spec-side: the removals of all descendants of the directory, then of the directory. -/
def specPostOrder (path : String) (entries : List Node) : List Op :=
  specPostOrderEntries path entries ++ [.removeDirectory path]

/-- The removals among `ops` that succeeded: the nodes that are gone afterwards. -/
def removedBy (fails : Op → Option Err) (ops : List Op) : List Op :=
  ops.filter (fun op => op.isRemoval && (fails op).isNone)

/-- A remote on which everything succeeds except removing the directory `d` itself. -/
def denyRootRemoval : Op → Option Err :=
  fun op => if op = .removeDirectory "d" then some (.other "permission denied") else none

/-! ## Download stream (`handleDownload`) -/

/-- What one `f.Read(buf)` returns: the bytes placed in the buffer (`n` is their
number) and the error `rErr`, if any. -/
structure ReadResult where
  data : List Nat
  err : Option Err
deriving DecidableEq, Repr

/-- How the read loop of `handleDownload` is left. -/
inductive LoopExit where
  | readError (rErr : Err)
  | writeError (wErr : Err)
deriving DecidableEq, Repr

/-- The loop `for { n, rErr := f.Read(buf); ... }` of `handleDownload`. `reads` answers
the successive reads and `wsWrite k` answers the write of frame number `k`. The result
is the list of frames written and the way the loop was left; it is `none` when the
reads given so far do not end the loop. -/
def downloadLoop (wsWrite : Nat → Option Err) : Nat → List ReadResult →
    Option (List Effect × LoopExit)
  | _, [] => none
  | k, r :: rest =>
    if r.data.length > 0 then
      match wsWrite k with
      | some wErr => some ([], .writeError wErr)
      | none =>
        match r.err with
        | some rErr => some ([.writeBinary r.data], .readError rErr)
        | none =>
          match downloadLoop wsWrite (k + 1) rest with
          | none => none
          | some (frames, ex) => some (.writeBinary r.data :: frames, ex)
    else
      match r.err with
      | some rErr => some ([], .readError rErr)
      | none => downloadLoop wsWrite k rest

/-- Go `sftpSocket.handleDownload`: `openErr` answers `client.Open`, `stat` answers
`f.Stat` with the file size. The result lists the outbound messages in order. -/
def handleDownload (openErr : Option Err) (stat : Except Err Int) (reads : List ReadResult)
    (wsWrite : Nat → Option Err) : Option (List Effect) :=
  match openErr with
  | some err => some [.sendJSON { Typ := "error", Message := err.Error }]
  | none =>
    match stat with
    | .error err => some [.sendJSON { Typ := "error", Message := err.Error }]
    | .ok size =>
      match downloadLoop wsWrite 0 reads with
      | none => none
      | some (frames, .writeError _) =>
        some (.sendJSON { Typ := "download_start", Total := size } :: frames)
      | some (frames, .readError _) =>
        some (.sendJSON { Typ := "download_start", Total := size } :: frames
          ++ [.sendJSON { Typ := "download_end" }])

/-- The frames a list of reads gives rise to: one per read that returned bytes. -/
def framesOf (reads : List ReadResult) : List Effect :=
  (reads.filter (fun r => decide (r.data.length > 0))).map (fun r => .writeBinary r.data)

/-- The size of the read buffer, `256*1024`. -/
def downloadBufSize : Nat := 256 * 1024

/-- Reads of a file with the given remaining content that fill a buffer of `k` bytes
until the content is exhausted; end-of-file is reported either together with the last
bytes or by a further read that returns no bytes. Reads after end-of-file are free. -/
inductive FullReads (k : Nat) : List Nat → List ReadResult → Prop where
  | eof (rest : List ReadResult) : FullReads k [] (⟨[], some .eof⟩ :: rest)
  | last (c : List Nat) (rest : List ReadResult) : c ≠ [] → c.length ≤ k →
      FullReads k c (⟨c, some .eof⟩ :: rest)
  | more (c : List Nat) (rs : List ReadResult) : c ≠ [] → FullReads k (c.drop k) rs →
      FullReads k c (⟨c.take k, none⟩ :: rs)

/-- The content cut into consecutive pieces of `k` bytes, the last one possibly shorter. -/
def chunks (k : Nat) (content : List Nat) : List (List Nat) :=
  if _h : k = 0 ∨ content = [] then []
  else content.take k :: chunks k (content.drop k)
termination_by content.length
decreasing_by
  have h1 : 0 < k := Nat.pos_of_ne_zero (fun e => _h (Or.inl e))
  have h2 : 0 < content.length := List.length_pos.mpr (fun e => _h (Or.inr e))
  simp only [List.length_drop]
  omega

/-- Reads of a download whose second read fails with an error that is not end-of-file. -/
def brokenReads : List ReadResult :=
  [⟨[1, 2], none⟩, ⟨[], some (.other "connection lost")⟩]

/-! ## Adaptive rate limiter (`adaptiveRateLimiter`) -/

/-- The value a Go `int` (64 bits, two's complement) holds after an arithmetic result
`x`: `x` wrapped into `[-2^63, 2^63)`. -/
def wrap64 (x : Int) : Int :=
  (x + 9223372036854775808) % 18446744073709551616 - 9223372036854775808

/-- Go `a + b` on `int`. -/
def goAdd (a b : Int) : Int := wrap64 (a + b)

/-- Go `a * b` on `int`. -/
def goMul (a b : Int) : Int := wrap64 (a * b)

/-- Go `a / b` on `int`: the quotient truncated toward zero. -/
def goDiv (a b : Int) : Int := wrap64 (Int.tdiv a b)

/-- Whether an integer is a value of the Go type `int`. -/
abbrev isInt64 (x : Int) : Prop := -9223372036854775808 ≤ x ∧ x < 9223372036854775808

/-- The mutable fields of `adaptiveRateLimiter`, each a Go `int`. The sink `w`, the
tickers, the SSH connection and the `done` channel are environment: they appear as the
arguments that answer `probe` and `Write`. -/
structure adaptiveRateLimiter where
  bytesLeft : Int
  limit : Int
  minRate : Int
  maxRate : Int
  currentRate : Int
deriving DecidableEq, Repr

/-- Go `sftpMinUploadRate`. -/
def sftpMinUploadRate : Int := 512 * 1024
/-- Go `sftpMaxUploadRate`. -/
def sftpMaxUploadRate : Int := 10 * 1024 * 1024
/-- Go `sftpInitUploadRate`. -/
def sftpInitUploadRate : Int := 2 * 1024 * 1024
/-- One millisecond as a `time.Duration` (nanoseconds). -/
def millisecond : Int := 1000000
/-- Go `sftpLatencyLow`. -/
def sftpLatencyLow : Int := 100 * millisecond
/-- Go `sftpLatencyHigh`. -/
def sftpLatencyHigh : Int := 300 * millisecond

/-- Go `newAdaptiveRateLimiter`: the state it builds. -/
def newAdaptiveRateLimiter : adaptiveRateLimiter :=
  let rate := sftpInitUploadRate
  let chunkLimit := goDiv rate 20
  { bytesLeft := chunkLimit
    limit := chunkLimit
    minRate := sftpMinUploadRate
    maxRate := sftpMaxUploadRate
    currentRate := rate }

/-- Go `adaptiveRateLimiter.probe`: `err` is the error of the keepalive request and
`latency` the measured round trip. -/
def probe (rl : adaptiveRateLimiter) (err : Option Err) (latency : Int) :
    adaptiveRateLimiter :=
  match err with
  | some _ => rl
  | none =>
    let currentRate :=
      if latency < sftpLatencyLow then
        let newRate := goAdd rl.currentRate (256 * 1024)
        if newRate > rl.maxRate then rl.maxRate else newRate
      else if latency > sftpLatencyHigh then
        let newRate := goDiv (goMul rl.currentRate 2) 3
        if newRate < rl.minRate then rl.minRate else newRate
      else rl.currentRate
    let limit := goDiv currentRate 20
    { rl with
      currentRate := currentRate
      limit := if limit < 4096 then 4096 else limit }

/-- A limiter state, well-formed as Go data, whose `currentRate` is `2^62`: doubling
it overflows the Go `int`. -/
def overflowState : adaptiveRateLimiter :=
  { bytesLeft := 0, limit := 4096, minRate := 524288, maxRate := 10485760,
    currentRate := 4611686018427387904 }

/-- What the inner sink `rl.w.Write` returns for a slice. -/
structure SinkResult where
  n : Int
  err : Option Err
deriving DecidableEq, Repr

/-- One call of the inner sink, as a function of the length of the slice handed to it. -/
abbrev Sink := Int → SinkResult

/-- The outcome of the `select` in `Write`: `done` was closed, or the ticker fired. -/
inductive Select where
  | done
  | tick
deriving DecidableEq, Repr

/-- What `Write` did, in order: a refill `bytesLeft = limit`, or a slice forwarded to
the sink, recorded with the input still unwritten, the `bytesLeft` read under the lock,
the length of the slice handed over and the count the sink reported. -/
inductive Item where
  | refill
  | forward (remaining avail handed n : Int)
deriving DecidableEq, Repr

/-- The wait for tokens at the head of an iteration of `Write`. -/
inductive Waited where
  | blocked
  | closed (sels : List Select)
  | ready (rl : adaptiveRateLimiter) (sels : List Select) (items : List Item)

/-- The block `if rl.bytesLeft <= 0 { select ...; rl.bytesLeft = rl.limit }`. -/
def awaitTokens (rl : adaptiveRateLimiter) (sels : List Select) : Waited :=
  if rl.bytesLeft ≤ 0 then
    match sels with
    | [] => .blocked
    | .done :: sels => .closed sels
    | .tick :: sels => .ready { rl with bytesLeft := rl.limit } sels [.refill]
  else .ready rl sels []

/-- The state of a `Write` call when it returned, or when the environment given so far
is used up (`returned = false`: the call is waiting on the ticker or on the sink). -/
structure WriteOut where
  rl : adaptiveRateLimiter
  written : Int
  err : Option Err
  returned : Bool
  trace : List Item
  sinks : List Sink
  sels : List Select

/-- Go `adaptiveRateLimiter.Write` on a slice of length `plen`, from the loop head with
`written` bytes already written. `sinks` answers the successive calls of the inner sink
and `sels` the successive `select`s. -/
def writeLoop (plen : Int) : List Sink → List Select → adaptiveRateLimiter → Int → WriteOut
  | sinks, sels, rl, written =>
    if written < plen then
      match awaitTokens rl sels with
      | .blocked =>
        { rl := rl, written := written, err := none, returned := false, trace := [],
          sinks := sinks, sels := sels }
      | .closed sels1 =>
        { rl := rl, written := written, err := some .closedPipe, returned := true,
          trace := [], sinks := sinks, sels := sels1 }
      | .ready rl1 sels1 items =>
        match sinks with
        | [] =>
          { rl := rl1, written := written, err := none, returned := false, trace := items,
            sinks := [], sels := sels1 }
        | w :: sinks1 =>
          let limit := rl1.bytesLeft
          let toWrite := if plen - written > limit then limit else plen - written
          let res := w toWrite
          let rl2 := { rl1 with bytesLeft := rl1.bytesLeft - res.n }
          let item := Item.forward (plen - written) limit toWrite res.n
          match res.err with
          | some e =>
            { rl := rl2, written := written + res.n, err := some e, returned := true,
              trace := items ++ [item], sinks := sinks1, sels := sels1 }
          | none =>
            let out := writeLoop plen sinks1 sels1 rl2 (written + res.n)
            { out with trace := items ++ item :: out.trace }
    else
      { rl := rl, written := written, err := none, returned := true, trace := [],
        sinks := sinks, sels := sels }

/-- The limiter states reachable from `newAdaptiveRateLimiter` by probes with any
outcome and by `Write` calls run to any point, with any sink and any select outcomes. -/
inductive Reachable : adaptiveRateLimiter → Prop where
  | init : Reachable newAdaptiveRateLimiter
  | probe (rl : adaptiveRateLimiter) (err : Option Err) (latency : Int) :
      Reachable rl → Reachable (probe rl err latency)
  | write (rl : adaptiveRateLimiter) (plen written : Int) (sinks : List Sink)
      (sels : List Select) :
      Reachable rl → Reachable (writeLoop plen sinks sels rl written).rl

/-- A sink that accepts every slice in full. -/
def acceptAll : Sink := fun handed => { n := handed, err := none }

/-- The limiter right after one slow probe (400 ms) on the initial state: the rate
and the limit dropped, the bucket still holds the tokens of the old limit. -/
def staleBucket : adaptiveRateLimiter := probe newAdaptiveRateLimiter none (400 * millisecond)

/-- The fields of the limiter that `Write` never assigns. -/
def sameRates (a b : adaptiveRateLimiter) : Prop :=
  a.limit = b.limit ∧ a.minRate = b.minRate ∧ a.maxRate = b.maxRate
    ∧ a.currentRate = b.currentRate

theorem SyncMap.Load_Store_same {α : Type} (m : SyncMap α) (k : String) (v : Stored α) :
    (m.Store k v).Load k = some v := by
  simp [SyncMap.Load, SyncMap.Store]

theorem SyncMap.Load_Store_other {α : Type} (m : SyncMap α) (k j : String) (v : Stored α)
    (h : j ≠ k) : (m.Store k v).Load j = m.Load j := by
  simp [SyncMap.Load, SyncMap.Store, h]

theorem SyncMap.Load_Delete_same {α : Type} (m : SyncMap α) (k : String) :
    (m.Delete k).Load k = none := by
  simp [SyncMap.Load, SyncMap.Delete]

theorem SyncMap.Load_Delete_other {α : Type} (m : SyncMap α) (k j : String) (h : j ≠ k) :
    (m.Delete k).Load j = m.Load j := by
  simp [SyncMap.Load, SyncMap.Delete, h]

theorem SyncMap.Delete_absent {α : Type} (m : SyncMap α) (k : String) (h : m.Load k = none) :
    m.Delete k = m := by
  funext j
  by_cases hj : j = k
  · subst hj; simpa [SyncMap.Delete, SyncMap.Load] using h.symm
  · simp [SyncMap.Delete, hj]

theorem SessionRegistry.calls_Load_frame (id : String) (cs : List SessionCall) :
    ∀ r : SessionRegistry, (∀ c ∈ cs, c.writes ≠ some id) →
      (r.calls cs).m.Load id = r.m.Load id := by
  induction cs with
  | nil => intro r _; rfl
  | cons c cs ih =>
    intro r h
    have hc : c.writes ≠ some id := h c (List.mem_cons_self _ _)
    have hcs : ∀ c' ∈ cs, c'.writes ≠ some id := fun c' hc' => h c' (List.mem_cons_of_mem _ hc')
    have step : (r.call c).m.Load id = r.m.Load id := by
      cases c with
      | register j info =>
        have hj : id ≠ j := fun e => hc (by simp [SessionCall.writes, e])
        exact SyncMap.Load_Store_other _ _ _ _ hj
      | unregister j =>
        have hj : id ≠ j := fun e => hc (by simp [SessionCall.writes, e])
        exact SyncMap.Load_Delete_other _ _ _ hj
      | get j => rfl
    have := ih (r.call c) hcs
    simpa [SessionRegistry.calls, List.foldl, step] using this

theorem SessionRegistry.Get_of_Load (r : SessionRegistry) (id : String) (v : SessionInfo)
    (h : r.m.Load id = some (.typed (some v))) : r.Get id = (some v, true) := by
  simp [SessionRegistry.Get, h, Stored.assert]

/-- C9 as stated fails at the nil pointer, which `Register` accepts as its `info`:
after `Register(id, nil)`, `Get(id)` returns `(nil, false)`, not `(nil, true)`. -/
theorem C9_register_nil_misses :
    ((⟨fun _ => none⟩ : SessionRegistry).Register "a" none).Get "a" = (none, false)
    ∧ ¬ ((((⟨fun _ => none⟩ : SessionRegistry).Register "a" none).calls []).Get "a"
          = (none, true)) := by
  decide

/-- C9, amended. After `Register(id, v)` with a non-nil `v` (a pointer to a record),
any finite sequence of calls that neither registers nor unregisters `id`
(Register/Unregister on other ids, Get on any id) leaves `Get(id) = (v, true)`; a second
`Register` on the same id with a non-nil value replaces the stored value (last write
wins); `Unregister` of an absent id leaves the registry unchanged. -/
theorem C9_session_get_after_register (r : SessionRegistry) (id : String) (v : SessionInfo)
    (cs : List SessionCall) (h : ∀ c ∈ cs, c.writes ≠ some id) :
    ((r.Register id (some v)).calls cs).Get id = (some v, true)
    ∧ (∀ w : SessionInfo,
        (((r.Register id (some v)).calls cs).Register id (some w)).Get id = (some w, true))
    ∧ (r.m.Load id = none → r.Unregister id = r) := by
  refine ⟨?_, ?_, ?_⟩
  · apply SessionRegistry.Get_of_Load
    rw [SessionRegistry.calls_Load_frame id cs _ h]
    exact SyncMap.Load_Store_same _ _ _
  · intro w
    apply SessionRegistry.Get_of_Load
    exact SyncMap.Load_Store_same _ _ _
  · intro habs
    cases r with
    | mk m =>
      have : m.Delete id = m := SyncMap.Delete_absent m id habs
      simp [SessionRegistry.Unregister, this]

/-- C9 at a concrete registry: register `a`, then register `b`, unregister `c`, get `a`. -/
theorem C9_session_get_after_register_witness :
    (∀ c ∈ [SessionCall.register "b" none, SessionCall.unregister "c", SessionCall.get "a"],
        c.writes ≠ some "a")
    ∧ ((((⟨fun _ => none⟩ : SessionRegistry).Register "a" (some exampleSession)).calls
        [SessionCall.register "b" none, SessionCall.unregister "c", SessionCall.get "a"]).Get "a"
        = (some exampleSession, true)) :=
  ⟨by decide,
   (C9_session_get_after_register ⟨fun _ => none⟩ "a" exampleSession
      [SessionCall.register "b" none, SessionCall.unregister "c", SessionCall.get "a"]
      (by decide)).1⟩

/-- What `ReconnectRegistry.Get` does, case by case. A stored record that has not
expired is returned and the registry is unchanged; an expired record is reported as a
miss and its entry is deleted; an absent token, a nil pointer and a value of another
type are reported as a miss with the registry unchanged; and after any miss a later
`Get` on the same token misses as well. -/
theorem reconnect_Get_behaviour (r : ReconnectRegistry) (now : Int) (token : String) :
    (∀ info, r.m.Load token = some (.typed (some info)) → now ≤ info.ExpiresAt →
        r.Get now token = ((some info, true), r))
    ∧ (∀ info, r.m.Load token = some (.typed (some info)) → info.ExpiresAt < now →
        (r.Get now token).1 = (none, false) ∧ (r.Get now token).2.m.Load token = none)
    ∧ (r.m.Load token = none → r.Get now token = ((none, false), r))
    ∧ (r.m.Load token = some (.typed none) ∨ r.m.Load token = some .foreign →
        r.Get now token = ((none, false), r))
    ∧ (∀ later, now ≤ later → (r.Get now token).1.2 = false →
        ((r.Get now token).2.Get later token).1 = (none, false)) := by
  refine ⟨?_, ?_, ?_, ?_, ?_⟩
  · intro info h hle
    have : ¬ info.ExpiresAt < now := by omega
    simp [ReconnectRegistry.Get, h, Stored.assert, After, this]
  · intro info h hlt
    have hget : r.Get now token = ((none, false), { m := r.m.Delete token }) := by
      simp [ReconnectRegistry.Get, h, Stored.assert, After, hlt]
    rw [hget]
    exact ⟨rfl, SyncMap.Load_Delete_same _ _⟩
  · intro h
    simp [ReconnectRegistry.Get, h]
  · rintro (h | h) <;> simp [ReconnectRegistry.Get, h, Stored.assert]
  · intro later hle hmiss
    cases h : r.m.Load token with
    | none => simp [ReconnectRegistry.Get, h]
    | some v =>
      cases v with
      | foreign => simp [ReconnectRegistry.Get, h, Stored.assert]
      | typed ptr =>
        cases ptr with
        | none => simp [ReconnectRegistry.Get, h, Stored.assert]
        | some info =>
          by_cases hexp : info.ExpiresAt < now
          · have hget : r.Get now token = ((none, false), { m := r.m.Delete token }) := by
              simp [ReconnectRegistry.Get, h, Stored.assert, After, hexp]
            rw [hget]
            simp [ReconnectRegistry.Get, SyncMap.Load_Delete_same]
          · simp [ReconnectRegistry.Get, h, Stored.assert, After, hexp] at hmiss

/-- C1. `Register(token, nil)` followed by `Get(token)` on an otherwise empty registry:
the lookup reports a miss, and so does a second lookup, but the nil entry is still
stored after both, although the sweep `Cleanup` deletes exactly such an entry. -/
theorem C1_get_keeps_nil_entry (now : Int) :
    ((ReconnectRegistry.empty.Register "t" none).Get now "t").1 = (none, false)
    ∧ ((ReconnectRegistry.empty.Register "t" none).Get now "t").2.m.Load "t"
        = some (.typed none)
    ∧ ((((ReconnectRegistry.empty.Register "t" none).Get now "t").2).Get now "t").1
        = (none, false)
    ∧ ((ReconnectRegistry.empty.Register "t" none).Cleanup now).m.Load "t" = none := by
  simp [ReconnectRegistry.Get, ReconnectRegistry.Register, ReconnectRegistry.empty,
    ReconnectRegistry.Cleanup, ReconnectRegistry.cleanupDeletes, SyncMap.Load, SyncMap.Store,
    Stored.assert]

/-! ## Theorems: origin check -/

theorem containsGo_iff (s substr : List Char) : containsGo s substr = true ↔ substr <:+: s := by
  induction s with
  | nil => simp [containsGo]
  | cons c s ih =>
    simp only [containsGo, Bool.or_eq_true, ih, List.isPrefixOf_iff_prefix, List.infix_cons_iff]

/-- C10 as stated fails: the origin `https://evil-example.com` is accepted for the host
`example.com`, although the origin host differs from the request host. -/
theorem C10_origin_lookalike_accepted :
    ¬ (CheckOrigin lookalikeRequest = true ↔ specOriginMatches lookalikeRequest) := by
  have h1 : CheckOrigin lookalikeRequest = true := by decide
  have h2 : ¬ specOriginMatches lookalikeRequest := by
    unfold specOriginMatches
    decide
  exact fun h => h2 (h.mp h1)

/-- C10, amended. The origin check accepts a request exactly when the `Origin` header is
absent or empty, or its value contains the request `Host` as a substring; in particular
the look-alike origin above is accepted. -/
theorem C10_origin_check_contains (r : Request) :
    (CheckOrigin r = true ↔
      (r.Origin = none ∨ r.Origin = some "" ∨ r.Host.toList <:+: r.headerGetOrigin.toList))
    ∧ CheckOrigin lookalikeRequest = true := by
  refine ⟨?_, by decide⟩
  unfold CheckOrigin
  by_cases h : r.headerGetOrigin = ""
  · simp only [h, if_true, true_iff]
    cases ho : r.Origin with
    | none => exact Or.inl rfl
    | some o =>
      have : o = "" := by simpa [Request.headerGetOrigin, ho] using h
      exact Or.inr (Or.inl (by rw [this]))
  · simp only [h, if_false, Contains, containsGo_iff]
    constructor
    · intro hc; exact Or.inr (Or.inr hc)
    · rintro (ho | ho | hc)
      · exact absurd (by simp [Request.headerGetOrigin, ho]) h
      · exact absurd (by simp [Request.headerGetOrigin, ho]) h
      · exact hc

/-! ## Theorems: upload join -/

/-- C2. After the join `handleUpload` sends exactly one response. It is the error
`upload failed: ...` followed by the removal of the partial file when the copy failed
with an error other than EOF / unexpected EOF, or else when the channel task failed;
otherwise it is `success`/`ok`, nothing is removed, and a size mismatch only adds a
warning before the response. -/
theorem C2_upload_join_response (copyErr : Option Err) (totalWritten : Int)
    (wErr : Option Err) (path : String) (size : Int) :
    ((handleUploadJoin copyErr totalWritten wErr path size).filter Effect.isResponse).length = 1
    ∧ (∀ e, copyErr = some e → e ≠ Err.eof → e ≠ Err.unexpectedEOF →
        handleUploadJoin copyErr totalWritten wErr path size
          = [.sendJSON { Typ := "error", Message := "upload failed: " ++ e.Error },
             .remove path])
    ∧ (∀ e, (copyErr = none ∨ copyErr = some Err.eof ∨ copyErr = some Err.unexpectedEOF) →
        wErr = some e →
        handleUploadJoin copyErr totalWritten wErr path size
          = [.sendJSON { Typ := "error", Message := "upload failed: " ++ e.Error },
             .remove path])
    ∧ ((copyErr = none ∨ copyErr = some Err.eof ∨ copyErr = some Err.unexpectedEOF) →
        wErr = none →
        (handleUploadJoin copyErr totalWritten wErr path size).filter Effect.isResponse
            = [.sendJSON { Typ := "success", Message := "ok" }]
          ∧ (handleUploadJoin copyErr totalWritten wErr path size).filter Effect.isRemove = []
          ∧ (size > 0 ∧ totalWritten ≠ size →
              handleUploadJoin copyErr totalWritten wErr path size
                = [.warning size totalWritten path,
                   .sendJSON { Typ := "success", Message := "ok" }]))
    ∧ (∀ pongs, handleUpload none pongs copyErr totalWritten wErr path size
        = .sendJSON { Typ := "success", Message := "ready" }
            :: List.replicate pongs (.sendJSON { Typ := "pong" })
            ++ handleUploadJoin copyErr totalWritten wErr path size) := by
  have key : ∀ e, copyErr = some e → e ≠ Err.eof → e ≠ Err.unexpectedEOF →
      copyFailure copyErr = some e := by
    intro e he h1 h2
    simp [copyFailure, he, h1, h2]
  have key2 : (copyErr = none ∨ copyErr = some Err.eof ∨ copyErr = some Err.unexpectedEOF) →
      copyFailure copyErr = none := by
    rintro (h | h | h) <;> simp [copyFailure, h]
  refine ⟨?_, ?_, ?_, ?_, ?_⟩
  · unfold handleUploadJoin
    cases copyFailure copyErr with
    | some e => simp [Effect.isResponse]
    | none =>
      cases wErr with
      | some e => simp [Effect.isResponse]
      | none =>
        by_cases hs : size > 0 ∧ totalWritten ≠ size <;> simp [hs, Effect.isResponse]
  · intro e he h1 h2
    simp [handleUploadJoin, key e he h1 h2]
  · intro e hc hw
    simp [handleUploadJoin, key2 hc, hw]
  · intro hc hw
    refine ⟨?_, ?_, ?_⟩
    · by_cases hs : size > 0 ∧ totalWritten ≠ size <;>
        simp [handleUploadJoin, key2 hc, hw, hs, Effect.isResponse]
    · by_cases hs : size > 0 ∧ totalWritten ≠ size <;>
        simp [handleUploadJoin, key2 hc, hw, hs, Effect.isRemove]
    · intro hs
      simp [handleUploadJoin, key2 hc, hw, hs]
  · intro pongs
    rfl


/-! ## Theorems: recursive delete -/

theorem Run.andThen_assoc (a b c : Run) : (a.andThen b).andThen c = a.andThen (b.andThen c) := by
  rcases a with ⟨ao, _ | ae⟩
  · rcases b with ⟨bo, _ | be⟩ <;> simp [Run.andThen]
  · simp [Run.andThen]

theorem Run.andThen_ok (a : Run) : a.andThen ([], none) = a := by
  rcases a with ⟨ao, _ | ae⟩ <;> simp [Run.andThen]

theorem runUntilFail_append (fails : Op → Option Err) (a b : List Op) :
    runUntilFail fails (a ++ b) = (runUntilFail fails a).andThen (runUntilFail fails b) := by
  induction a with
  | nil => simp [runUntilFail, Run.andThen]
  | cons op a ih =>
    rw [List.cons_append, runUntilFail, ih, runUntilFail, Run.andThen_assoc]

theorem runUntilFail_singleton (fails : Op → Option Err) (op : Op) :
    runUntilFail fails [op] = call fails op := by
  simp [runUntilFail, Run.andThen_ok]

mutual
theorem removeDir_eq_run (fails : Op → Option Err) (path : String) (entries : List Node) :
    removeDir fails path entries = runUntilFail fails (planDir path entries) := by
  rw [removeDir, planDir, removeEntries_eq_run fails path entries]
  rw [show Op.readDir path :: planEntries path entries ++ [Op.removeDirectory path]
      = [Op.readDir path] ++ (planEntries path entries ++ [Op.removeDirectory path]) by simp]
  rw [runUntilFail_append, runUntilFail_append, runUntilFail_singleton,
    runUntilFail_singleton]
termination_by (sizeOf entries, 1)
theorem removeEntries_eq_run (fails : Op → Option Err) (path : String)
    (entries : List Node) :
    removeEntries fails path entries = runUntilFail fails (planEntries path entries) := by
  match entries with
  | [] => simp [removeEntries, planEntries, runUntilFail]
  | .dir name sub :: rest =>
    rw [removeEntries, planEntries, planNode, runUntilFail_append,
      removeDir_eq_run fails (path ++ "/" ++ name) sub, removeEntries_eq_run fails path rest,
      planDir]
  | .file name :: rest =>
    rw [removeEntries, planEntries, planNode, runUntilFail_append, runUntilFail_singleton,
      removeEntries_eq_run fails path rest]
termination_by (sizeOf entries, 0)
end

theorem runUntilFail_cases (fails : Op → Option Err) (l : List Op) :
    (runUntilFail fails l = (l, none) ∧ ∀ o ∈ l, fails o = none)
    ∨ (∃ pre op post err, l = pre ++ op :: post
        ∧ runUntilFail fails l = (pre ++ [op], some err)
        ∧ fails op = some err ∧ ∀ o ∈ pre, fails o = none) := by
  induction l with
  | nil => exact Or.inl ⟨rfl, by simp⟩
  | cons a l ih =>
    cases ha : fails a with
    | some err =>
      refine Or.inr ⟨[], a, l, err, rfl, ?_, ha, by simp⟩
      simp [runUntilFail, call, Run.andThen, ha]
    | none =>
      rcases ih with ⟨h1, h2⟩ | ⟨pre, op, post, err, h1, h2, h3, h4⟩
      · refine Or.inl ⟨?_, ?_⟩
        · simp [runUntilFail, call, Run.andThen, ha, h1]
        · intro o ho
          rcases List.mem_cons.mp ho with rfl | ho
          · exact ha
          · exact h2 o ho
      · refine Or.inr ⟨a :: pre, op, post, err, by simp [h1], ?_, h3, ?_⟩
        · simp [runUntilFail, call, Run.andThen, ha, h2]
        · intro o ho
          rcases List.mem_cons.mp ho with rfl | ho
          · exact ha
          · exact h4 o ho

mutual
theorem planNode_removals (path : String) (n : Node) :
    (planNode path n).filter Op.isRemoval = specPostOrderNode path n := by
  match n with
  | .file name => simp [planNode, specPostOrderNode, Op.isRemoval]
  | .dir name entries =>
    simp [planNode, specPostOrderNode, Op.isRemoval, List.filter_cons, List.filter_append,
      planEntries_removals (path ++ "/" ++ name) entries]
termination_by (sizeOf n, 0)
theorem planEntries_removals (path : String) (entries : List Node) :
    (planEntries path entries).filter Op.isRemoval = specPostOrderEntries path entries := by
  match entries with
  | [] => simp [planEntries, specPostOrderEntries]
  | n :: rest =>
    simp [planEntries, specPostOrderEntries, List.filter_append, planNode_removals path n,
      planEntries_removals path rest]
termination_by (sizeOf entries, 0)
end

theorem planDir_removals (path : String) (entries : List Node) :
    (planDir path entries).filter Op.isRemoval = specPostOrder path entries := by
  simp [planDir, specPostOrder, List.filter_cons, List.filter_append, Op.isRemoval,
    planEntries_removals]

theorem removedBy_of_all_ok (fails : Op → Option Err) (l : List Op)
    (h : ∀ o ∈ l, fails o = none) : removedBy fails l = l.filter Op.isRemoval := by
  unfold removedBy
  apply List.filter_congr
  intro o ho
  simp [h o ho]

theorem removeDir_denyRootRemoval :
    removeDir denyRootRemoval "d" [.file "a"]
      = ([.readDir "d", .remove "d/a", .removeDirectory "d"],
         some (.other "permission denied")) := by
  rw [removeDir_eq_run]
  simp [planDir, planEntries, planNode, runUntilFail, call, Run.andThen, denyRootRemoval]

/-- C3 as stated fails: with the listing `d = [a]`, the file `d/a` (the only descendant
of `d`) is removed, yet `removeDir` returns an error because removing `d` itself fails. -/
theorem C3_descendants_removed_yet_error :
    ¬ ((removeDir denyRootRemoval "d" [.file "a"]).2 = none ↔
        ∀ o ∈ specPostOrderEntries "d" [.file "a"],
          o ∈ removedBy denyRootRemoval (removeDir denyRootRemoval "d" [.file "a"]).1) := by
  rw [removeDir_denyRootRemoval]
  intro h
  have hall : ∀ o ∈ specPostOrderEntries "d" [.file "a"],
      o ∈ removedBy denyRootRemoval
        [.readDir "d", .remove "d/a", .removeDirectory "d"] := by
    intro o ho
    have : o = .remove "d/a" := by
      simpa [specPostOrderEntries, specPostOrderNode] using ho
    subst this
    decide
  have := h.mpr hall
  simp at this

/-- C3, amended. `removeDir` issues the planned operations in order and stops after the
first one that fails, returning its error; the removals it issues are a prefix of the
depth-first post-order of the subtree (every entry before its directory); and it returns
success if and only if every node of the subtree, the directory itself included, has
been removed. -/
theorem C3_removeDir_post_order (fails : Op → Option Err) (path : String)
    (entries : List Node) :
    removeDir fails path entries = runUntilFail fails (planDir path entries)
    ∧ ((removeDir fails path entries).2 = none ↔
        removedBy fails (removeDir fails path entries).1 = specPostOrder path entries)
    ∧ ((removeDir fails path entries).1.filter Op.isRemoval <+: specPostOrder path entries)
    ∧ (∀ err, (removeDir fails path entries).2 = some err →
        ∃ pre op, (removeDir fails path entries).1 = pre ++ [op]
          ∧ fails op = some err ∧ ∀ o ∈ pre, fails o = none)
    ∧ ((removeDir fails path entries).2 = none →
        (removeDir fails path entries).1 = planDir path entries
          ∧ ∀ o ∈ planDir path entries, fails o = none)
    ∧ (∀ name, fails (.stat path) = none →
        ((handleDelete fails path (.dir name entries)).2.Typ = "success" ↔
          (removeDir fails path entries).2 = none)) := by
  have hdel : ∀ name, fails (.stat path) = none →
      ((handleDelete fails path (.dir name entries)).2.Typ = "success" ↔
        (removeDir fails path entries).2 = none) := by
    intro name hstat
    simp only [handleDelete, hstat]
    cases (removeDir fails path entries).2 <;> simp
  suffices hmain :
      removeDir fails path entries = runUntilFail fails (planDir path entries)
      ∧ ((removeDir fails path entries).2 = none ↔
          removedBy fails (removeDir fails path entries).1 = specPostOrder path entries)
      ∧ ((removeDir fails path entries).1.filter Op.isRemoval <+: specPostOrder path entries)
      ∧ (∀ err, (removeDir fails path entries).2 = some err →
          ∃ pre op, (removeDir fails path entries).1 = pre ++ [op]
            ∧ fails op = some err ∧ ∀ o ∈ pre, fails o = none)
      ∧ ((removeDir fails path entries).2 = none →
          (removeDir fails path entries).1 = planDir path entries
            ∧ ∀ o ∈ planDir path entries, fails o = none) by
    exact ⟨hmain.1, hmain.2.1, hmain.2.2.1, hmain.2.2.2.1, hmain.2.2.2.2, hdel⟩
  have heq := removeDir_eq_run fails path entries
  rw [heq]
  refine ⟨rfl, ?_⟩
  rcases runUntilFail_cases fails (planDir path entries) with
    ⟨h1, h2⟩ | ⟨pre, op, post, err, h1, h2, h3, h4⟩
  · rw [h1]
    refine ⟨?_, ?_, ?_, ?_⟩
    · simp only [true_iff]
      rw [removedBy_of_all_ok fails _ h2, planDir_removals]
    · rw [planDir_removals]
    · intro err h; simp at h
    · intro _; exact ⟨rfl, h2⟩
  · rw [h2]
    have hplan : (planDir path entries).filter Op.isRemoval
        = pre.filter Op.isRemoval ++ (op :: post).filter Op.isRemoval := by
      rw [h1, List.filter_append]
    have hlast : Op.removeDirectory path ∈ op :: post := by
      have hmem : (planDir path entries).getLast? = some (Op.removeDirectory path) := by
        rw [planDir]
        exact List.getLast?_concat _
      rw [h1, List.getLast?_append_of_ne_nil pre (by simp)] at hmem
      exact List.mem_of_getLast?_eq_some hmem
    refine ⟨?_, ?_, ?_, ?_⟩
    · simp only [reduceCtorEq, false_iff]
      intro hrem
      have h5 : removedBy fails (pre ++ [op]) = pre.filter Op.isRemoval := by
        unfold removedBy
        rw [List.filter_append]
        have : List.filter (fun o => o.isRemoval && (fails o).isNone) [op] = [] := by
          simp [h3]
        rw [this, List.append_nil]
        apply List.filter_congr
        intro o ho
        simp [h4 o ho]
      rw [h5, ← planDir_removals, hplan] at hrem
      have hnil : (op :: post).filter Op.isRemoval = [] := by
        have := congrArg List.length hrem
        simp only [List.length_append] at this
        exact List.eq_nil_of_length_eq_zero (by omega)
      have : Op.removeDirectory path ∈ (op :: post).filter Op.isRemoval :=
        List.mem_filter.mpr ⟨hlast, rfl⟩
      rw [hnil] at this
      simp at this
    · rw [← planDir_removals, h1]
      apply List.IsPrefix.filter
      exact ⟨post, by simp⟩
    · intro e he
      have : err = e := by simpa using he
      subst this
      exact ⟨pre, op, rfl, h3, h4⟩
    · intro h; simp at h

/-! ## Theorems: download stream -/

/-- C4 as stated fails: the second read fails with `connection lost`, which is not
end-of-file, and `download_end` is sent all the same after the forwarded frame. -/
theorem C4_download_end_after_failed_read :
    handleDownload none (.ok 5) brokenReads (fun _ => none)
      = some [.sendJSON { Typ := "download_start", Total := 5 }, .writeBinary [1, 2],
              .sendJSON { Typ := "download_end" }] := by
  decide

theorem downloadLoop_read_error (wsWrite : Nat → Option Err) (hw : ∀ k, wsWrite k = none)
    (data : List Nat) (rErr : Err) (post : List ReadResult) :
    ∀ (pre : List ReadResult) (k : Nat), (∀ r ∈ pre, r.err = none) →
      downloadLoop wsWrite k (pre ++ ⟨data, some rErr⟩ :: post)
        = some (framesOf (pre ++ [⟨data, some rErr⟩]), .readError rErr) := by
  intro pre
  induction pre with
  | nil =>
    intro k _
    by_cases hd : data.length > 0
    · simp [downloadLoop, framesOf, hd, hw]
    · have hd0 : data = [] := by
        cases data with
        | nil => rfl
        | cons a l => simp at hd
      simp [downloadLoop, framesOf, hd0]
  | cons r pre ih =>
    intro k hpre
    have hr : r.err = none := hpre r (List.mem_cons_self _ _)
    have hrest : ∀ r' ∈ pre, r'.err = none := fun r' h => hpre r' (List.mem_cons_of_mem _ h)
    by_cases hd : r.data.length > 0
    · simp [downloadLoop, framesOf, hd, hw, hr, ih (k + 1) hrest, List.filter_cons]
    · have hd0 : r.data = [] := by
        cases hdat : r.data with
        | nil => rfl
        | cons a l => simp [hdat] at hd
      simp [downloadLoop, framesOf, hd0, hr, ih k hrest, List.filter_cons]

theorem downloadLoop_write_error (wsWrite : Nat → Option Err) (data : List Nat)
    (rErr : Option Err) (post : List ReadResult) (wErr : Err) (hdata : data ≠ []) :
    ∀ (pre : List ReadResult) (k : Nat), (∀ r ∈ pre, r.err = none) →
      wsWrite (k + (framesOf pre).length) = some wErr →
      (∀ j, j < (framesOf pre).length → wsWrite (k + j) = none) →
      downloadLoop wsWrite k (pre ++ ⟨data, rErr⟩ :: post)
        = some (framesOf pre, .writeError wErr) := by
  intro pre
  induction pre with
  | nil =>
    intro k _ hk _
    have hd : data.length > 0 := List.length_pos.mpr hdata
    simp only [framesOf, List.filter_nil, List.map_nil, List.length_nil, Nat.add_zero] at hk
    simp [downloadLoop, framesOf, hd, hk]
  | cons r pre ih =>
    intro k hpre hk hj
    have hr : r.err = none := hpre r (List.mem_cons_self _ _)
    have hrest : ∀ r' ∈ pre, r'.err = none := fun r' h => hpre r' (List.mem_cons_of_mem _ h)
    by_cases hd : r.data.length > 0
    · have hlen : (framesOf (r :: pre)).length = (framesOf pre).length + 1 := by
        simp [framesOf, List.filter_cons, hd]
      have hk0 : wsWrite k = none := by
        have := hj 0 (by omega)
        simpa using this
      have hk1 : wsWrite (k + 1 + (framesOf pre).length) = some wErr := by
        rw [hlen] at hk
        rw [← hk]; congr 1; omega
      have hj1 : ∀ j, j < (framesOf pre).length → wsWrite (k + 1 + j) = none := by
        intro j hjlt
        have := hj (j + 1) (by omega)
        rw [← this]; congr 1; omega
      have hfr : framesOf (r :: pre) = .writeBinary r.data :: framesOf pre := by
        simp [framesOf, List.filter_cons, hd]
      simp [downloadLoop, hd, hk0, hr, ih (k + 1) hrest hk1 hj1, hfr]
    · have hd0 : r.data = [] := by
        cases hdat : r.data with
        | nil => rfl
        | cons a l => simp [hdat] at hd
      have hfr : framesOf (r :: pre) = framesOf pre := by
        simp [framesOf, List.filter_cons, hd0]
      rw [hfr] at hk hj
      simp [downloadLoop, hd0, hr, ih k hrest hk hj, hfr]

/-- C4, amended. After a successful open and stat, let the reads before the first
erroring read return no error. If every channel write succeeds, then for ANY read error
`rErr`, end-of-file or not, the outbound messages are `download_start`, one frame per
read that returned bytes, and `download_end`; no `error` response is sent. The stream
ends with neither `download_end` nor `error` exactly when a channel write fails: then
the messages are `download_start` and the frames written before the failing write. -/
theorem C4_download_end_on_any_read_error (size : Int) (pre post : List ReadResult)
    (data : List Nat) (rErr : Err) (wsWrite : Nat → Option Err)
    (hpre : ∀ r ∈ pre, r.err = none) :
    ((∀ k, wsWrite k = none) →
      handleDownload none (.ok size) (pre ++ ⟨data, some rErr⟩ :: post) wsWrite
        = some (.sendJSON { Typ := "download_start", Total := size }
            :: framesOf (pre ++ [⟨data, some rErr⟩])
            ++ [.sendJSON { Typ := "download_end" }]))
    ∧ (∀ wErr, data ≠ [] → wsWrite (framesOf pre).length = some wErr →
        (∀ j, j < (framesOf pre).length → wsWrite j = none) →
        handleDownload none (.ok size) (pre ++ ⟨data, some rErr⟩ :: post) wsWrite
          = some (.sendJSON { Typ := "download_start", Total := size } :: framesOf pre)) := by
  constructor
  · intro hw
    simp [handleDownload, downloadLoop_read_error wsWrite hw data rErr post pre 0 hpre]
  · intro wErr hdata hk hj
    have := downloadLoop_write_error wsWrite data (some rErr) post wErr hdata pre 0 hpre
      (by simpa using hk) (by simpa using hj)
    simp [handleDownload, this]

/-- C4 at concrete reads: one frame, then a read failing with `connection lost`. -/
theorem C4_download_end_on_any_read_error_witness :
    (∀ r ∈ [(⟨[1, 2], none⟩ : ReadResult)], r.err = none)
    ∧ handleDownload none (.ok 5)
        ([⟨[1, 2], none⟩] ++ ⟨[], some (.other "connection lost")⟩ :: []) (fun _ => none)
      = some (.sendJSON { Typ := "download_start", Total := 5 }
          :: framesOf ([⟨[1, 2], none⟩] ++ [⟨[], some (.other "connection lost")⟩])
          ++ [.sendJSON { Typ := "download_end" }]) :=
  ⟨by decide,
   (C4_download_end_on_any_read_error 5 [⟨[1, 2], none⟩] [] [] (.other "connection lost")
      (fun _ => none) (by decide)).1 (fun _ => rfl)⟩

/-! ### Chunking -/

theorem chunks_nil (k : Nat) : chunks k [] = [] := by
  rw [chunks]; simp

theorem chunks_cons (k : Nat) (c : List Nat) (hk : 0 < k) (hc : c ≠ []) :
    chunks k c = c.take k :: chunks k (c.drop k) := by
  rw [chunks]
  have : ¬ (k = 0 ∨ c = []) := by
    rintro (h | h)
    · omega
    · exact hc h
  simp [this]

theorem chunks_props (k : Nat) (hk : 0 < k) :
    ∀ (n : Nat) (c : List Nat), c.length ≤ n →
      (chunks k c).flatten = c
      ∧ (∀ x ∈ chunks k c, x ≠ [])
      ∧ (∀ x ∈ (chunks k c).dropLast, x.length = k)
      ∧ (chunks k c).length = (c.length + (k - 1)) / k := by
  intro n
  induction n with
  | zero =>
    intro c hc
    have : c = [] := List.eq_nil_of_length_eq_zero (by omega)
    subst this
    rw [chunks_nil]
    refine ⟨rfl, by simp, by simp, ?_⟩
    simp only [List.length_nil, Nat.zero_add]
    exact (Nat.div_eq_of_lt (by omega)).symm
  | succ n ih =>
    intro c hc
    by_cases hnil : c = []
    · subst hnil
      rw [chunks_nil]
      refine ⟨rfl, by simp, by simp, ?_⟩
      simp only [List.length_nil, Nat.zero_add]
      exact (Nat.div_eq_of_lt (by omega)).symm
    · have hpos : 0 < c.length := List.length_pos.mpr hnil
      have hdrop : (c.drop k).length ≤ n := by
        simp only [List.length_drop]; omega
      obtain ⟨h1, h2, h3, h4⟩ := ih (c.drop k) hdrop
      rw [chunks_cons k c hk hnil]
      refine ⟨?_, ?_, ?_, ?_⟩
      · simp only [List.flatten_cons, h1, List.take_append_drop]
      · intro x hx
        rcases List.mem_cons.mp hx with rfl | hx
        · intro h
          have := congrArg List.length h
          simp only [List.length_take, List.length_nil] at this
          omega
        · exact h2 x hx
      · intro x hx
        by_cases hrest : chunks k (c.drop k) = []
        · rw [hrest] at hx
          simp at hx
        · obtain ⟨y, ys, hys⟩ := List.exists_cons_of_ne_nil hrest
          rw [hys, List.dropLast_cons₂] at hx
          rcases List.mem_cons.mp hx with rfl | hx
          · have hlen : 0 < (chunks k (c.drop k)).length := by rw [hys]; simp
            rw [h4] at hlen
            have hdpos : 0 < (c.drop k).length := by
              by_contra hcon
              have h0 : (c.drop k).length = 0 := by omega
              rw [h0, Nat.zero_add, Nat.div_eq_of_lt (by omega)] at hlen
              omega
            simp only [List.length_drop] at hdpos
            simp only [List.length_take]
            omega
          · apply h3
            rw [hys]
            exact hx
      · simp only [List.length_cons, h4, List.length_drop]
        by_cases hle : c.length ≤ k
        · have e1 : c.length - k = 0 := by omega
          rw [e1, Nat.zero_add, Nat.div_eq_of_lt (by omega)]
          have : (c.length + (k - 1)) / k = 1 := by
            apply Nat.div_eq_of_lt_le <;> omega
          omega
        · have e2 : c.length + (k - 1) = (c.length - k + (k - 1)) + k := by omega
          rw [e2, Nat.add_div_right _ hk]

theorem downloadLoop_fullReads (k : Nat) (hk : 0 < k) (wsWrite : Nat → Option Err)
    (hw : ∀ j, wsWrite j = none) (c : List Nat) (reads : List ReadResult)
    (h : FullReads k c reads) :
    ∀ j, downloadLoop wsWrite j reads
      = some ((chunks k c).map (fun x => Effect.writeBinary x), .readError .eof) := by
  induction h with
  | eof rest =>
    intro j
    simp [downloadLoop, chunks_nil]
  | last c rest hc hlen =>
    intro j
    have hpos : c.length > 0 := List.length_pos.mpr hc
    have htake : c.take k = c := List.take_of_length_le hlen
    have hdrop : c.drop k = [] := List.drop_of_length_le hlen
    simp [downloadLoop, hpos, hw, chunks_cons k c hk hc, htake, hdrop, chunks_nil]
  | more c rs hc _ ih =>
    intro j
    have hpos : c.length > 0 := List.length_pos.mpr hc
    have htake : (c.take k).length > 0 := by
      simp only [List.length_take]; omega
    rw [chunks_cons k c hk hc]
    simp only [downloadLoop, htake, if_true, hw, ih (j + 1), List.map_cons]

theorem chunks_lengths_307200 (c : List Nat) (h : c.length = 307200) :
    (chunks 262144 c).map List.length = [262144, 45056] := by
  have hc : c ≠ [] := by
    intro e; rw [e] at h; simp at h
  have hd : (c.drop 262144).length = 45056 := by
    simp only [List.length_drop]; omega
  have hdne : c.drop 262144 ≠ [] := by
    intro e; rw [e] at hd; simp at hd
  have hdd : (c.drop 262144).drop 262144 = [] :=
    List.drop_of_length_le (by omega)
  rw [chunks_cons 262144 c (by omega) hc, chunks_cons 262144 _ (by omega) hdne, hdd,
    chunks_nil]
  simp only [List.map_cons, List.map_nil, List.length_take, hd, h]
  rfl

/-- C5. For a file whose reads fill the 262144-byte buffer until its content is
exhausted, with a stat size equal to the content length `n` and channel writes that
succeed, `handleDownload` sends `download_start` with `total = n`, then the content cut
into `ceil(n/262144)` frames, then `download_end`. No frame is empty, every frame but
the last has 262144 bytes, the frames concatenate to the content, and a content of
307200 bytes gives exactly two frames of 262144 and 45056 bytes. -/
theorem C5_download_frames (content : List Nat) (reads : List ReadResult)
    (wsWrite : Nat → Option Err) (hw : ∀ j, wsWrite j = none)
    (h : FullReads downloadBufSize content reads) :
    handleDownload none (.ok content.length) reads wsWrite
      = some (.sendJSON { Typ := "download_start", Total := content.length }
          :: (chunks 262144 content).map (fun x => Effect.writeBinary x)
          ++ [.sendJSON { Typ := "download_end" }])
    ∧ (chunks 262144 content).length = (content.length + 262143) / 262144
    ∧ (∀ x ∈ (chunks 262144 content).dropLast, x.length = 262144)
    ∧ (∀ x ∈ chunks 262144 content, x ≠ [])
    ∧ (chunks 262144 content).flatten = content
    ∧ (content.length = 307200 →
        (chunks 262144 content).map List.length = [262144, 45056]) := by
  have hk : (0 : Nat) < 262144 := by omega
  have hbuf : downloadBufSize = 262144 := by decide
  rw [hbuf] at h
  obtain ⟨h1, h2, h3, h4⟩ := chunks_props 262144 hk content.length content (Nat.le_refl _)
  refine ⟨?_, h4, h3, h2, h1, chunks_lengths_307200 content⟩
  simp [handleDownload, downloadLoop_fullReads 262144 hk wsWrite hw content reads h 0]

/-- C5 at a three-byte file whose only read returns the bytes together with end-of-file. -/
theorem C5_download_frames_witness :
    (∀ j : Nat, (fun _ => none : Nat → Option Err) j = none)
    ∧ FullReads downloadBufSize [7, 8, 9] [⟨[7, 8, 9], some .eof⟩]
    ∧ handleDownload none (.ok ([7, 8, 9] : List Nat).length) [⟨[7, 8, 9], some .eof⟩]
        (fun _ => none)
      = some (.sendJSON { Typ := "download_start", Total := ([7, 8, 9] : List Nat).length }
          :: (chunks 262144 [7, 8, 9]).map (fun x => Effect.writeBinary x)
          ++ [.sendJSON { Typ := "download_end" }]) :=
  ⟨fun _ => rfl,
   FullReads.last [7, 8, 9] [] (by decide) (by decide),
   (C5_download_frames [7, 8, 9] [⟨[7, 8, 9], some .eof⟩] (fun _ => none) (fun _ => rfl)
      (FullReads.last [7, 8, 9] [] (by decide) (by decide))).1⟩

/-! ## Theorems: adaptive rate limiter -/

theorem wrap64_of_isInt64 (x : Int) (h : isInt64 x) : wrap64 x = x := by
  unfold isInt64 at h
  unfold wrap64
  omega

theorem goAdd_step (c : Int) (h0 : 0 ≤ c) (h1 : c < 4611686018427387904) :
    goAdd c (256 * 1024) = c + 262144 := by
  unfold goAdd
  have e : c + 256 * 1024 = c + 262144 := by omega
  rw [e]
  exact wrap64_of_isInt64 _ ⟨by omega, by omega⟩

theorem goDiv_of_nonneg (a d : Int) (ha : 0 ≤ a) (ha2 : a < 9223372036854775808)
    (hd : 0 < d) : goDiv a d = a / d := by
  unfold goDiv
  rw [Int.tdiv_eq_ediv ha (Int.le_of_lt hd)]
  have hle := Int.ediv_le_self d ha
  have hnn := Int.ediv_nonneg ha (Int.le_of_lt hd)
  exact wrap64_of_isInt64 _ ⟨by omega, by omega⟩

theorem goDiv_of_neg (a : Int) (ha : a < 0) (ha2 : -9223372036854775808 ≤ a) :
    goDiv a 20 = -((-a) / 20) := by
  unfold goDiv
  have e : a = -(-a) := by omega
  have ht : Int.tdiv a 20 = -((-a) / 20) := by
    conv_lhs => rw [e]
    rw [Int.neg_tdiv, Int.tdiv_eq_ediv (by omega) (by omega)]
  rw [ht]
  exact wrap64_of_isInt64 _ ⟨by omega, by omega⟩

theorem goMulDiv_step (c : Int) (h0 : 0 ≤ c) (h1 : c < 4611686018427387904) :
    goDiv (goMul c 2) 3 = c * 2 / 3 := by
  have e : goMul c 2 = c * 2 := by
    unfold goMul
    exact wrap64_of_isInt64 _ ⟨by omega, by omega⟩
  rw [e]
  exact goDiv_of_nonneg _ 3 (by omega) (by omega) (by omega)

theorem clampLimit_eq (x : Int) (hx : isInt64 x) :
    (if goDiv x 20 < 4096 then 4096 else goDiv x 20) = max (x / 20) 4096 := by
  unfold isInt64 at hx
  by_cases h : 0 ≤ x
  · rw [goDiv_of_nonneg x 20 h hx.2 (by omega)]
    split_ifs <;> omega
  · rw [goDiv_of_neg x (by omega) hx.1]
    split_ifs <;> omega

/-- C6 as stated fails on a state whose `currentRate` is `2^62`: `currentRate * 2`
overflows the Go `int`, the quotient is negative, and a slow probe sets `currentRate`
to `minRate = 524288`, not to `max(floor(currentRate * 2 / 3), minRate)`. -/
theorem C6_probe_overflow :
    (probe overflowState none (400 * millisecond)).currentRate = 524288
    ∧ max (overflowState.currentRate * 2 / 3) overflowState.minRate = 3074457345618258602
    ∧ ¬ ((probe overflowState none (400 * millisecond)).currentRate
          = max (overflowState.currentRate * 2 / 3) overflowState.minRate) := by
  decide

/-- C6, amended. In a limiter state whose `currentRate` is at least 0 and below `2^62`
(`minRate` and `maxRate` being any Go `int`s): a failed probe leaves the limiter
unchanged. Otherwise a latency below 100 ms sets `currentRate` to
`min(currentRate + 262144, maxRate)`, a latency above 300 ms sets it to
`max(floor(currentRate * 2 / 3), minRate)`, a latency in between leaves it, and `limit`
becomes `max(floor(newCurrentRate / 20), 4096)`. `bytesLeft`, `minRate` and `maxRate`
are never modified. -/
theorem C6_probe_aimd (rl : adaptiveRateLimiter) (err : Option Err) (latency : Int)
    (hmin : isInt64 rl.minRate) (hmax : isInt64 rl.maxRate)
    (h0 : 0 ≤ rl.currentRate) (h1 : rl.currentRate < 4611686018427387904) :
    (err ≠ none → probe rl err latency = rl)
    ∧ (err = none →
        (latency < 100 * 1000000 →
          (probe rl err latency).currentRate = min (rl.currentRate + 262144) rl.maxRate)
        ∧ (latency > 300 * 1000000 →
          (probe rl err latency).currentRate = max (rl.currentRate * 2 / 3) rl.minRate)
        ∧ (100 * 1000000 ≤ latency → latency ≤ 300 * 1000000 →
          (probe rl err latency).currentRate = rl.currentRate)
        ∧ (probe rl err latency).limit = max ((probe rl err latency).currentRate / 20) 4096)
    ∧ (probe rl err latency).bytesLeft = rl.bytesLeft
    ∧ (probe rl err latency).minRate = rl.minRate
    ∧ (probe rl err latency).maxRate = rl.maxRate := by
  have hadd := goAdd_step rl.currentRate h0 h1
  have hmul := goMulDiv_step rl.currentRate h0 h1
  unfold isInt64 at hmin hmax
  cases err with
  | some e => simp [probe]
  | none =>
    refine ⟨by simp, fun _ => ⟨?_, ?_, ?_, ?_⟩, rfl, rfl, rfl⟩
    · intro h
      have hl : latency < sftpLatencyLow := by
        simp only [sftpLatencyLow, millisecond]; omega
      simp only [probe, hl, if_true, hadd]
      split <;> omega
    · intro h
      have hl : ¬ latency < sftpLatencyLow := by
        simp only [sftpLatencyLow, millisecond]; omega
      have hh : latency > sftpLatencyHigh := by
        simp only [sftpLatencyHigh, millisecond]; omega
      simp only [probe, hl, hh, if_true, if_false, hmul]
      split <;> omega
    · intro ha hb
      have hl : ¬ latency < sftpLatencyLow := by
        simp only [sftpLatencyLow, millisecond]; omega
      have hh : ¬ latency > sftpLatencyHigh := by
        simp only [sftpLatencyHigh, millisecond]; omega
      simp only [probe, hl, hh, if_false]
    · simp only [probe, hadd, hmul]
      apply clampLimit_eq
      unfold isInt64
      split_ifs <;> constructor <;> omega

/-- C6 at the initial state with a 400 ms probe: the rate drops to
`floor(2097152 * 2 / 3) = 1398101`. -/
theorem C6_probe_aimd_witness :
    isInt64 newAdaptiveRateLimiter.minRate ∧ isInt64 newAdaptiveRateLimiter.maxRate
    ∧ 0 ≤ newAdaptiveRateLimiter.currentRate
    ∧ newAdaptiveRateLimiter.currentRate < 4611686018427387904
    ∧ (400 * millisecond > 300 * 1000000 →
        (probe newAdaptiveRateLimiter none (400 * millisecond)).currentRate
          = max (newAdaptiveRateLimiter.currentRate * 2 / 3) newAdaptiveRateLimiter.minRate) :=
  ⟨by decide, by decide, by decide, by decide,
   ((C6_probe_aimd newAdaptiveRateLimiter none (400 * millisecond) (by decide) (by decide)
      (by decide) (by decide)).2.1 rfl).2.1⟩

theorem awaitTokens_ready (rl rl1 : adaptiveRateLimiter) (sels sels1 : List Select)
    (items : List Item) (h : awaitTokens rl sels = .ready rl1 sels1 items) :
    sameRates rl1 rl
    ∧ ((items = [] ∧ rl1 = rl ∧ 0 < rl.bytesLeft)
        ∨ (items = [.refill] ∧ rl.bytesLeft ≤ 0 ∧ rl1.bytesLeft = rl.limit)) := by
  unfold awaitTokens at h
  by_cases hb : rl.bytesLeft ≤ 0
  · simp only [hb, if_true] at h
    match sels, h with
    | .tick :: s, h =>
      simp only [Waited.ready.injEq] at h
      obtain ⟨h1, _, h3⟩ := h
      subst h1
      exact ⟨⟨rfl, rfl, rfl, rfl⟩, Or.inr ⟨h3.symm, hb, rfl⟩⟩
  · simp only [hb, if_false, Waited.ready.injEq] at h
    obtain ⟨h1, _, h3⟩ := h
    subst h1
    exact ⟨⟨rfl, rfl, rfl, rfl⟩, Or.inl ⟨h3.symm, rfl, by omega⟩⟩

theorem writeLoop_sameRates (plen : Int) (sinks : List Sink) :
    ∀ (sels : List Select) (rl : adaptiveRateLimiter) (written : Int),
      sameRates (writeLoop plen sinks sels rl written).rl rl := by
  induction sinks with
  | nil =>
    intro sels rl written
    unfold writeLoop
    by_cases hlt : written < plen
    · simp only [hlt, if_true]
      cases hw : awaitTokens rl sels with
      | blocked => exact ⟨rfl, rfl, rfl, rfl⟩
      | closed s => exact ⟨rfl, rfl, rfl, rfl⟩
      | ready rl1 sels1 items => exact (awaitTokens_ready rl rl1 sels sels1 items hw).1
    · simp only [hlt, if_false]
      exact ⟨rfl, rfl, rfl, rfl⟩
  | cons w sinks ih =>
    intro sels rl written
    unfold writeLoop
    by_cases hlt : written < plen
    · simp only [hlt, if_true]
      cases hw : awaitTokens rl sels with
      | blocked => exact ⟨rfl, rfl, rfl, rfl⟩
      | closed s => exact ⟨rfl, rfl, rfl, rfl⟩
      | ready rl1 sels1 items =>
        have h1 := (awaitTokens_ready rl rl1 sels sels1 items hw).1
        simp only
        split
        · exact h1
        · rename_i hnone
          have h2 := ih sels1
            { rl1 with bytesLeft := rl1.bytesLeft
                - (w (if plen - written > rl1.bytesLeft then rl1.bytesLeft
                      else plen - written)).n }
            (written + (w (if plen - written > rl1.bytesLeft then rl1.bytesLeft
                      else plen - written)).n)
          obtain ⟨a1, a2, a3, a4⟩ := h2
          obtain ⟨b1, b2, b3, b4⟩ := h1
          exact ⟨a1.trans b1, a2.trans b2, a3.trans b3, a4.trans b4⟩
    · simp only [hlt, if_false]
      exact ⟨rfl, rfl, rfl, rfl⟩

theorem probe_inv (rl : adaptiveRateLimiter) (err : Option Err) (latency : Int)
    (h : rl.minRate = 524288 ∧ rl.maxRate = 10485760 ∧ rl.minRate ≤ rl.currentRate
      ∧ rl.currentRate ≤ rl.maxRate ∧ rl.limit = rl.currentRate / 20) :
    (probe rl err latency).minRate = 524288 ∧ (probe rl err latency).maxRate = 10485760
      ∧ (probe rl err latency).minRate ≤ (probe rl err latency).currentRate
      ∧ (probe rl err latency).currentRate ≤ (probe rl err latency).maxRate
      ∧ (probe rl err latency).limit = (probe rl err latency).currentRate / 20 := by
  obtain ⟨h1, h2, h3, h4, h5⟩ := h
  cases err with
  | some e => exact ⟨h1, h2, h3, h4, h5⟩
  | none =>
    have hadd := goAdd_step rl.currentRate (by omega) (by omega)
    have hmul := goMulDiv_step rl.currentRate (by omega) (by omega)
    have hc3 : (probe rl none latency).minRate ≤ (probe rl none latency).currentRate := by
      simp only [probe, hadd, hmul]
      split_ifs <;> omega
    have hc4 : (probe rl none latency).currentRate ≤ (probe rl none latency).maxRate := by
      simp only [probe, hadd, hmul]
      split_ifs <;> omega
    have hmin : (probe rl none latency).minRate = rl.minRate := rfl
    have hmax : (probe rl none latency).maxRate = rl.maxRate := rfl
    have hlim : (probe rl none latency).limit
        = max ((probe rl none latency).currentRate / 20) 4096 := by
      have hcur : isInt64 (probe rl none latency).currentRate := by
        unfold isInt64
        rw [hmin] at hc3
        rw [hmax] at hc4
        constructor <;> omega
      have := clampLimit_eq (probe rl none latency).currentRate hcur
      rw [← this]
      rfl
    rw [hmin] at hc3 ⊢
    rw [hmax] at hc4 ⊢
    refine ⟨h1, h2, hc3, hc4, ?_⟩
    rw [hlim]
    omega

theorem reachable_inv (rl : adaptiveRateLimiter) (h : Reachable rl) :
    rl.minRate = 524288 ∧ rl.maxRate = 10485760 ∧ rl.minRate ≤ rl.currentRate
      ∧ rl.currentRate ≤ rl.maxRate ∧ rl.limit = rl.currentRate / 20 := by
  induction h with
  | init => decide
  | probe rl err latency _ ih => exact probe_inv rl err latency ih
  | write rl plen written sinks sels _ ih =>
    obtain ⟨a1, a2, a3, a4⟩ := writeLoop_sameRates plen sinks sels rl written
    rw [a1, a2, a3, a4]
    exact ih

/-- C7. In every limiter state reachable from `newAdaptiveRateLimiter` by probes with
any outcome and `Write` steps, `524288 = minRate <= currentRate <= maxRate = 10485760`;
the initial `currentRate` is 2 MiB/s. -/
theorem C7_rate_within_bounds (rl : adaptiveRateLimiter) (h : Reachable rl) :
    524288 = rl.minRate ∧ rl.minRate ≤ rl.currentRate ∧ rl.currentRate ≤ rl.maxRate
      ∧ rl.maxRate = 10485760
      ∧ newAdaptiveRateLimiter.currentRate = 2 * 1024 * 1024 := by
  obtain ⟨h1, h2, h3, h4, _⟩ := reachable_inv rl h
  exact ⟨h1.symm, h3, h4, h2, by decide⟩

/-- C7 at the state after one slow probe and one `Write` of 10 bytes. -/
theorem C7_rate_within_bounds_witness :
    Reachable (writeLoop 10 [acceptAll] [] staleBucket 0).rl
    ∧ 524288 = (writeLoop 10 [acceptAll] [] staleBucket 0).rl.minRate
    ∧ (writeLoop 10 [acceptAll] [] staleBucket 0).rl.currentRate ≤ 10485760 :=
  ⟨Reachable.write _ 10 0 [acceptAll] [] (Reachable.probe _ none _ Reachable.init),
   (C7_rate_within_bounds _
      (Reachable.write _ 10 0 [acceptAll] [] (Reachable.probe _ none _ Reachable.init))).1,
   by decide⟩

/-- In a reachable state the Go `int` arithmetic of `probe` does not wrap: the sum
and the product-quotient it computes are the exact ones, and `currentRate` and `limit`
are positive and far below `2^63`. -/
theorem probe_arithmetic_in_range (rl : adaptiveRateLimiter) (h : Reachable rl) :
    goAdd rl.currentRate (256 * 1024) = rl.currentRate + 262144
      ∧ goDiv (goMul rl.currentRate 2) 3 = rl.currentRate * 2 / 3
      ∧ 0 < rl.currentRate ∧ rl.currentRate * 2 < 2 ^ 63
      ∧ 4096 ≤ rl.limit ∧ rl.limit < 2 ^ 63 := by
  obtain ⟨h1, h2, h3, h4, h5⟩ := reachable_inv rl h
  refine ⟨goAdd_step rl.currentRate (by omega) (by omega),
    goMulDiv_step rl.currentRate (by omega) (by omega), ?_, ?_, ?_, ?_⟩ <;> omega

/-- The arithmetic bound at the initial state. -/
theorem probe_arithmetic_in_range_witness :
    Reachable newAdaptiveRateLimiter
    ∧ goDiv (goMul newAdaptiveRateLimiter.currentRate 2) 3
        = newAdaptiveRateLimiter.currentRate * 2 / 3 :=
  ⟨Reachable.init, (probe_arithmetic_in_range newAdaptiveRateLimiter Reachable.init).2.1⟩

/-- AIMD monotonicity in a reachable state: a fast probe (below 100 ms) never lowers
`currentRate` and keeps it at most `maxRate`; a slow probe (above 300 ms) never raises it
and keeps it at least `minRate`. -/
theorem probe_monotone (rl : adaptiveRateLimiter) (latency : Int) (h : Reachable rl) :
    (latency < sftpLatencyLow →
        rl.currentRate ≤ (probe rl none latency).currentRate
          ∧ (probe rl none latency).currentRate ≤ rl.maxRate)
    ∧ (latency > sftpLatencyHigh →
        (probe rl none latency).currentRate ≤ rl.currentRate
          ∧ rl.minRate ≤ (probe rl none latency).currentRate) := by
  obtain ⟨h1, h2, h3, h4, h5⟩ := reachable_inv rl h
  have hlo : sftpLatencyLow = 100000000 := by decide
  have hhi : sftpLatencyHigh = 300000000 := by decide
  have hadd := goAdd_step rl.currentRate (by omega) (by omega)
  have hmul := goMulDiv_step rl.currentRate (by omega) (by omega)
  constructor
  · intro hl
    simp only [probe, hl, if_true, hadd]
    split_ifs <;> omega
  · intro hl
    have hn : ¬ latency < sftpLatencyLow := by omega
    simp only [probe, hn, hl, if_true, if_false, hmul]
    split_ifs <;> omega

/-- AIMD monotonicity at the initial state with a 50 ms probe. -/
theorem probe_monotone_witness :
    Reachable newAdaptiveRateLimiter
    ∧ ((50 * millisecond < sftpLatencyLow →
        newAdaptiveRateLimiter.currentRate
            ≤ (probe newAdaptiveRateLimiter none (50 * millisecond)).currentRate
          ∧ (probe newAdaptiveRateLimiter none (50 * millisecond)).currentRate
            ≤ newAdaptiveRateLimiter.maxRate)) :=
  ⟨Reachable.init, (probe_monotone newAdaptiveRateLimiter (50 * millisecond) Reachable.init).1⟩

end Sshwifty
